import Mathlib

/-!
# firefox-extras: the deployment script `scripts/deploy.js`

A shallow embedding of the deployment pipeline of `scripts/deploy.js`
(preference patching, profile discovery, release asset selection, download
with redirects, archive extraction) together with the properties of the
specification that can be checked against it.

Text is modelled as `List Char`.  JavaScript strings are sequences of UTF-16
code units; every character the script's patterns mention (the preference
key, the replacement line, the members of the class `\s`) lies in the Basic
Multilingual Plane, so searching and replacing on code points and on code
units select the same positions.
-/

set_option autoImplicit false

namespace FirefoxExtras

/-! ## PreferencePatcher: `updateFirefoxPreferences` -/

/-- File content, path text and other strings of the script. -/
abbrev Text := List Char

/-- The preference key tested by `content.includes(...)` in
`updateFirefoxPreferences`. -/
def prefKey : Text :=
  "toolkit.legacyUserProfileCustomizations.stylesheets".toList

/-- The constant `prefLine` of `updateFirefoxPreferences`. -/
def prefLine : Text :=
  "user_pref(\"toolkit.legacyUserProfileCustomizations.stylesheets\", true);".toList

/-- The literal head of the regular expression of `updateFirefoxPreferences`,
`user_pref\("toolkit\.legacyUserProfileCustomizations\.stylesheets",`. -/
def reHead : Text :=
  "user_pref(\"toolkit.legacyUserProfileCustomizations.stylesheets\",".toList

/-- The alternative `true` of the group `(true|false)`. -/
def reTrue : Text := "true".toList

/-- The alternative `false` of the group `(true|false)`. -/
def reFalse : Text := "false".toList

/-- The literal tail `\);` of the regular expression. -/
def reClose : Text := ");".toList

/-- The character class `\s` of ECMAScript regular expressions: white space
and line terminators. -/
def isSpace (c : Char) : Bool :=
  c = '\t' || c = '\n' || c.toNat = 11 || c.toNat = 12 || c = '\r' || c = ' ' ||
  c.toNat = 0xA0 || c.toNat = 0x1680 || (0x2000 ≤ c.toNat && c.toNat ≤ 0x200A) ||
  c.toNat = 0x2028 || c.toNat = 0x2029 || c.toNat = 0x202F || c.toNat = 0x205F ||
  c.toNat = 0x3000 || c.toNat = 0xFEFF

/-- Consume the literal `lit` at the start of `s`; `none` when `s` does not
start with it. -/
def dropLit : Text → Text → Option Text
  | [], s => some s
  | _ :: _, [] => none
  | p :: ps, c :: cs => if p = c then dropLit ps cs else none

/-- `String.prototype.includes`: `needle` occurs somewhere in `s`. -/
def includes : Text → Text → Bool
  | [], needle => needle.isEmpty
  | c :: cs, needle => (dropLit needle (c :: cs)).isSome || includes cs needle

/-- The regular expressions the pattern of `updateFirefoxPreferences` is
built from. -/
inductive Re where
  /-- The empty pattern. -/
  | empty
  /-- One literal character. -/
  | char (c : Char)
  /-- The greedy `\s*`. -/
  | spaces
  /-- One pattern after the other. -/
  | seq (a b : Re)
  /-- The alternation `a|b`. -/
  | alt (a b : Re)

/-- The ways `\s*` can match at the start of `s`, as the texts that remain, in
the order a backtracking matcher tries them: the longest run of white space
first, then one character less at a time. -/
def spacesRun : Text → List Text
  | [] => [[]]
  | c :: cs => if isSpace c then spacesRun cs ++ [c :: cs] else [c :: cs]

/-- The ways a pattern can match at the start of `s`, as the texts that remain
after the match, in the order a backtracking matcher tries them. -/
def Re.run : Re → Text → List Text
  | .empty, s => [s]
  | .char c, s =>
    match s with
    | [] => []
    | d :: cs => if d = c then [cs] else []
  | .spaces, s => spacesRun s
  | .seq a b, s => (a.run s).flatMap fun rest => b.run rest
  | .alt a b, s => a.run s ++ b.run s

/-- A literal text as a pattern. -/
def Re.lits : Text → Re
  | [] => .empty
  | c :: cs => .seq (.char c) (Re.lits cs)

/-- The pattern after `\s*`: one of the booleans and the tail. -/
def boolAndClose : Re := .seq (.alt (Re.lits reTrue) (Re.lits reFalse)) (Re.lits reClose)

/-- The regular expression of `updateFirefoxPreferences`,
`/user_pref\("toolkit\.legacyUserProfileCustomizations\.stylesheets",\s*(true|false)\);/`. -/
def prefPattern : Re := .seq (Re.lits reHead) (.seq .spaces boolAndClose)

/-- One attempt of the regular expression at the start of `s`: the first way
the backtracking matcher finds, as the matched text and the text after it. -/
def matchHere (s : Text) : Option (Text × Text) :=
  (prefPattern.run s).head?.map fun rest => (s.take (s.length - rest.length), rest)

/-- The same attempt read without backtracking: the head, the longest run of
white space, one of the two booleans, the tail.  It is proved equal to
`matchHere` below (giving white space back cannot help, because the next
pattern character is `t` or `f`, and the two alternatives start with
different characters). -/
def matchGreedy (s : Text) : Option (Text × Text) :=
  match dropLit reHead s with
  | none => none
  | some r =>
    let ws := r.takeWhile isSpace
    let r1 := r.dropWhile isSpace
    match dropLit reTrue r1 with
    | some r2 => (dropLit reClose r2).map fun r3 => (reHead ++ ws ++ reTrue ++ reClose, r3)
    | none =>
      match dropLit reFalse r1 with
      | some r2 => (dropLit reClose r2).map fun r3 => (reHead ++ ws ++ reFalse ++ reClose, r3)
      | none => none

/-- The leftmost match of the regular expression in `s` (the regular
expression has no `g` flag, so `replace` uses only this one): the text before
the match, the match, the text after it. -/
def execPref : Text → Option (Text × Text × Text)
  | [] => none
  | c :: cs =>
    match matchHere (c :: cs) with
    | some (m, rest) => some ([], m, rest)
    | none => (execPref cs).map fun r => (c :: r.1, r.2.1, r.2.2)

/-- The call `content.replace(/.../, prefLine)`: the leftmost match is
replaced by `prefLine` (which has no `$`, so it is inserted literally); with
no match the content is returned unchanged. -/
def replacePref (content : Text) : Text :=
  match execPref content with
  | some (pre, _, post) => pre ++ prefLine ++ post
  | none => content

/-- The text transformation of `updateFirefoxPreferences`: replace when the
content mentions the key, otherwise append the preference line between two
line feeds. -/
def patchContent (content : Text) : Text :=
  if includes content prefKey then replacePref content
  else content ++ ('\n' :: prefLine ++ ['\n'])

/-- The function `updateFirefoxPreferences` on the state of `user.js`
(`none`: the file does not exist, read as empty content); the result is the
content written back.  Reading and writing are taken to succeed. -/
def updateFirefoxPreferences (userJs : Option Text) : Option Text :=
  some (patchContent (userJs.getD []))

/-- The lines of a text: `content.split('\n')`. -/
def splitLines : Text → List Text
  | [] => [[]]
  | c :: cs =>
    if c = '\n' then [] :: splitLines cs
    else
      match splitLines cs with
      | [] => [[c]]
      | l :: ls => (c :: l) :: ls

/-- A line holds a statement of the preference: the regular expression of
`updateFirefoxPreferences` matches somewhere in it. -/
def lineMatches (l : Text) : Bool := (execPref l).isSome

/-- Number of lines of the content that hold a statement of the preference. -/
def matchingLines (content : Text) : Nat :=
  ((splitLines content).filter lineMatches).length

/-- Number of statements of the preference in the content: the positions at
which the regular expression matches. -/
def countStatements : Text → Nat
  | [] => 0
  | c :: cs => (if (matchHere (c :: cs)).isSome then 1 else 0) + countStatements cs

/-- The lines of the content that do not contain the preference key, in
order. -/
def keyFreeLines (content : Text) : List Text :=
  (splitLines content).filter fun l => !includes l prefKey

/-- The texts the regular expression matches: the head, white space, one of
the two booleans, the tail. -/
def IsStmt (t : Text) : Prop :=
  ∃ ws bb, (∀ c ∈ ws, isSpace c = true) ∧ (bb = reTrue ∨ bb = reFalse) ∧
    t = reHead ++ ws ++ bb ++ reClose

/-! ## ProfileLocator: `findActiveProfile` -/

/-- `String.prototype.startsWith`. -/
def startsWith (s p : Text) : Bool := (dropLit p s).isSome

/-- The substring `'default'` looked for by the comparator of
`findActiveProfile`. -/
def defaultMark : Text := "default".toList

/-- The comparator passed to `sort` in `findActiveProfile`. -/
def compareProfiles (a b : Text) : Int :=
  if includes a defaultMark then -1
  else if includes b defaultMark then 1
  else 0

/-- The loop of `CountAndMakeRun` in V8's `Array.prototype.sort`
(`third_party/v8/builtins/array-sort.tq`): how many more elements continue
the run that ends in `prev`.  A descending run goes on while
`comparefn(current, previous) < 0`, an ascending one while it is `>= 0`. -/
def runExtent {α : Type} (cmp : α → α → Int) (desc : Bool) : α → List α → Nat
  | _, [] => 0
  | prev, x :: xs =>
    if desc then (if cmp x prev ≥ 0 then 0 else runExtent cmp desc x xs + 1)
    else (if cmp x prev < 0 then 0 else runExtent cmp desc x xs + 1)

/-- The macro `CountAndMakeRun` of V8 at the start of the array: the initial
run, reversed in place when it is descending, and the elements after it. -/
def countAndMakeRun {α : Type} (cmp : α → α → Int) : List α → List α × List α
  | [] => ([], [])
  | [x] => ([x], [])
  | x0 :: x1 :: xs =>
    let desc : Bool := cmp x1 x0 < 0
    let n := runExtent cmp desc x1 xs + 2
    let run := (x0 :: x1 :: xs).take n
    (if desc then run.reverse else run, (x0 :: x1 :: xs).drop n)

/-- The binary search of V8's `BinaryInsertionSort`: while `left < right`,
compare the pivot with the middle element and keep the left half when
`comparefn(pivot, middle) < 0`, the right half otherwise.  The interval
shrinks in every round, so `right - left` rounds are enough (`fuel`). -/
def searchPos {α : Type} (cmp : α → α → Int) (work : List α) (pivot : α) :
    Nat → Nat → Nat → Nat
  | 0, left, _ => left
  | fuel + 1, left, right =>
    if left < right then
      let mid := left + (right - left) / 2
      if cmp pivot (work.getD mid pivot) < 0 then searchPos cmp work pivot fuel left mid
      else searchPos cmp work pivot fuel (mid + 1) right
    else left

/-- One round of `BinaryInsertionSort`: the pivot is inserted into the sorted
front of the array at the position the binary search returns. -/
def insertPivot {α : Type} (cmp : α → α → Int) (front : List α) (pivot : α) : List α :=
  let left := searchPos cmp front pivot front.length 0 front.length
  front.take left ++ pivot :: front.drop left

/-- V8's `BinaryInsertionSort(low, start, high)`: the elements after the
initial run are inserted one by one, in array order. -/
def binaryInsertionSort {α : Type} (cmp : α → α → Int) (run rest : List α) : List α :=
  rest.foldl (insertPivot cmp) run

/-- `Array.prototype.sort(comparefn)` as V8 (the engine of Node.js, which runs
the script; V8 7.0 and Node.js 11 onwards) computes it for an array of fewer
than 64 elements: the minimum run length of `ArrayTimSortImpl` is then the
array length, so the sort is `CountAndMakeRun` followed by one
`BinaryInsertionSort` over the rest and no merge takes place.  Arrays of zero
or one element are returned as they are.  The comparator of the script is not
a consistent comparison function (it answers `-1` for a name with `default`
against itself), so ECMAScript leaves the order to the engine and the
algorithm of the engine is what decides it. -/
def timSortShort {α : Type} (cmp : α → α → Int) (xs : List α) : List α :=
  if xs.length < 2 then xs
  else binaryInsertionSort cmp (countAndMakeRun cmp xs).1 (countAndMakeRun cmp xs).2

/-- `Array.prototype.sort(comparefn)`.  For 64 and more elements V8 merges
several runs; that path is not part of the script and is taken as the
parameter `mergeSort`. -/
def arraySort {α : Type} (mergeSort : List α → List α) (cmp : α → α → Int)
    (xs : List α) : List α :=
  if xs.length < 64 then timSortShort cmp xs else mergeSort xs

/-- An entry of the profile root as `findActiveProfile` sees it: the name
returned by `fs.readdirSync` and the answer of
`fs.statSync(path.join(profilesDir, dir)).isDirectory()`. -/
structure DirEntry where
  name : Text
  isDirectory : Bool
deriving DecidableEq, Repr

/-- The message of the error thrown when no profile is left after filtering. -/
def noProfilesFound : Text := "No Firefox profiles found".toList

/-- The message of the error thrown when the profile root does not exist. -/
def profilesDirNotFound (profilesDir : Text) : Text :=
  "Firefox profiles directory not found: ".toList ++ profilesDir

/-- The array of `findActiveProfile` before it is sorted: the names of the
entries that are directories, filtered to those that do not start with `.`
and contain `.`, in listing order. -/
def candidates (listing : List DirEntry) : List Text :=
  ((listing.filter fun e => e.isDirectory).map fun e => e.name).filter
    fun dir => !startsWith dir ['.'] && includes dir ['.']

/-- The array `profiles` of `findActiveProfile`: the candidates sorted with
the comparator. -/
def sortedProfiles (mergeSort : List Text → List Text) (listing : List DirEntry) :
    List Text :=
  arraySort mergeSort compareProfiles (candidates listing)

/-- The function `findActiveProfile`.  `profilesDir` is the value of
`getFirefoxProfilesDir()`, `sep` the path separator of the platform, and
`root` the listing of the profile root (`none` when the root does not exist).
`path.join(profilesDir, name)` of a normalized directory and an entry name is
the directory, the separator and the name.  The result is the returned path
or the message of the thrown error. -/
def findActiveProfile (mergeSort : List Text → List Text) (sep profilesDir : Text)
    (root : Option (List DirEntry)) : Except Text Text :=
  match root with
  | none => .error (profilesDirNotFound profilesDir)
  | some listing =>
    match sortedProfiles mergeSort listing with
    | [] => .error noProfilesFound
    | first :: _ => .ok (profilesDir ++ sep ++ first)

/-- A list of names with a name containing `default` starts with one. -/
def HeadDefault (l : List Text) : Prop :=
  (∃ x ∈ l, includes x defaultMark = true) →
    ∃ h t, l = h :: t ∧ includes h defaultMark = true

/-! ## ArtifactDownloader: `downloadFile` -/

/-- The files on disk seen by `downloadFile`: the content at each path, `none`
where no file exists. -/
abbrev Disk := Text → Option Text

/-- Create or overwrite the file at `path` (`fs.createWriteStream` and the
bytes piped into it). -/
def Disk.write (d : Disk) (path content : Text) : Disk :=
  fun q => if q = path then some content else d q

/-- The call `fs.unlinkSync(path)`. -/
def Disk.unlink (d : Disk) (path : Text) : Disk :=
  fun q => if q = path then none else d q

/-- What happens after a response with status 200 has been piped into the
file, in terms of the events `downloadFile` listens to. -/
inductive BodyOutcome where
  /-- The file stream emits `finish`: the whole body has been written. -/
  | finish
  /-- The file stream emits `error` while the body is being written. -/
  | fileError (err : Text)
  /-- The request emits `error` while the body is being received. -/
  | requestError (err : Text)
deriving DecidableEq, Repr

/-- What one call `https.get(url, callback)` leads to. -/
inductive Exchange where
  /-- The request emits `error` and no response arrives. -/
  | requestError (err : Text)
  /-- The callback runs with a response: its status code and message, its
  `Location` header, the bytes that reach the file, and how the transfer of
  the body ends. -/
  | response (statusCode : Nat) (statusMessage location written : Text)
      (outcome : BodyOutcome)
deriving DecidableEq, Repr

/-- How the promise returned by `downloadFile` settles. -/
inductive Settled where
  | resolved
  | rejected (err : Text)
deriving DecidableEq, Repr

/-- The message of the error for a status that is neither 200 nor a followed
redirect. -/
def httpError (statusCode : Nat) (statusMessage : Text) : Text :=
  "HTTP ".toList ++ (Nat.repr statusCode).toList ++ ": ".toList ++ statusMessage

/-- The function `downloadFile(url, outputPath)`.  `net` answers each URL,
the first argument is the number of calls of `https.get` the run may make
(`none`: the promise has not settled within them), and the result is how the
promise settles together with the disk at that moment.  The write stream is
taken to open the file before the exchange calls back, and `https.get` to
accept the URL. -/
def downloadFile (net : Text → Exchange) (outputPath : Text) :
    Nat → Text → Disk → Option (Settled × Disk)
  | 0, _, _ => none
  | fuel + 1, url, disk =>
    -- const file = fs.createWriteStream(outputPath)
    let disk := disk.write outputPath []
    match net url with
    | .requestError err =>
      -- if (fs.existsSync(outputPath)) fs.unlinkSync(outputPath)
      some (.rejected err,
        if (disk outputPath).isSome then disk.unlink outputPath else disk)
    | .response statusCode statusMessage location written outcome =>
      if statusCode = 302 ∨ statusCode = 301 then
        downloadFile net outputPath fuel location (disk.unlink outputPath)
      else if statusCode ≠ 200 then
        some (.rejected (httpError statusCode statusMessage), disk.unlink outputPath)
      else
        let disk := disk.write outputPath written
        match outcome with
        | .finish => some (.resolved, disk)
        | .fileError err => some (.rejected err, disk.unlink outputPath)
        | .requestError err =>
          some (.rejected err,
            if (disk outputPath).isSome then disk.unlink outputPath else disk)

/-- The exchange is a 301 or 302 response that points to `location`. -/
def Exchange.redirectsTo (e : Exchange) (location : Text) : Prop :=
  ∃ statusCode statusMessage written outcome,
    (statusCode = 302 ∨ statusCode = 301) ∧
      e = .response statusCode statusMessage location written outcome

/-- A server that answers every URL with a 302 redirect to the same URL. -/
def redirectLoop : Text → Exchange :=
  fun url => .response 302 "Found".toList url [] .finish

/-! ## ArchiveExtractor: `extractZip` -/

/-- A normalized absolute path: its segments below the root. -/
abbrev Path := List Text

/-- What is found at a path of the directory tree. -/
inductive Node where
  | file (content : Text)
  | dir
deriving DecidableEq, Repr

/-- The directory tree `extractZip` writes into: what exists at each path. -/
abbrev Tree := Path → Option Node

/-- An entry as the archive decoder yields it: its `fileName`, and what
`zipfile.openReadStream(entry, ...)` hands over, the content of the entry or
(`none`) an error. -/
structure ZipEntry where
  fileName : Text
  data : Option Text
deriving DecidableEq, Repr

/-- The segments of a file name between its slashes. -/
def segments : Text → List Text
  | [] => [[]]
  | c :: cs =>
    if c = '/' then [] :: segments cs
    else
      match segments cs with
      | [] => [[c]]
      | s :: ss => (c :: s) :: ss

/-- Normalization of `path.join`, one segment at a time: empty segments and
`.` are dropped, `..` leaves the last directory (the root is its own
parent). -/
def pushSegment (acc : Path) (seg : Text) : Path :=
  if seg = [] ∨ seg = ['.'] then acc
  else if seg = ['.', '.'] then acc.dropLast
  else acc ++ [seg]

/-- The call `path.join(outputDir, entry.fileName)` for a normalized absolute
`outputDir`. -/
def pathJoin (outputDir : Path) (fileName : Text) : Path :=
  (segments fileName).foldl pushSegment outputDir

/-- The test `/\/$/.test(entry.fileName)`: the name ends with a slash. -/
def isDirectoryName (fileName : Text) : Bool := fileName.getLast? = some '/'

/-- A file exists at the path. -/
def isFileAt (t : Tree) (p : Path) : Bool :=
  match t p with
  | some (.file _) => true
  | _ => false

/-- The call `fs.mkdirSync(p, { recursive: true })`: the directory and its
missing ancestors are created; it throws (`none`) when the path or one of its
ancestors is a file. -/
def mkdirRecursive (t : Tree) (p : Path) : Option Tree :=
  if p.inits.any (isFileAt t) then none
  else some fun q => if q.isPrefixOf p then some .dir else t q

/-- The content is written to the path (`fs.createWriteStream(outputPath)` and
`readStream.pipe(writeStream)`), replacing a file that is there. -/
def Tree.writeFile (t : Tree) (p : Path) (content : Text) : Tree :=
  fun q => if q = p then some (.file content) else t q

/-- How a run of `extractZip` ends. -/
inductive Extraction where
  /-- The archive emitted `end` and the promise had not been rejected. -/
  | resolved
  /-- The promise was rejected. -/
  | rejected
  /-- The call `fs.mkdirSync` threw inside the `entry` handler. -/
  | thrown
deriving DecidableEq, Repr

/-- The `entry` handler of `extractZip`, run over the entries in archive order.
`rejected` tells whether the promise has been rejected already.  A directory
entry is created with its ancestors.  For a file entry the ancestors are
created, the read stream is opened (an error rejects, and no further entry is
read), and the content is written; when the path is a directory the write
stream emits `error`, which rejects, and then `close`, which reads the next
entry. -/
def extractEntries (outputDir : Path) : List ZipEntry → Bool → Tree → Extraction × Tree
  | [], rejected, t => (if rejected then .rejected else .resolved, t)
  | e :: es, rejected, t =>
    if isDirectoryName e.fileName then
      match mkdirRecursive t (pathJoin outputDir e.fileName) with
      | none => (.thrown, t)
      | some t1 => extractEntries outputDir es rejected t1
    else
      match mkdirRecursive t (pathJoin outputDir e.fileName).dropLast with
      | none => (.thrown, t)
      | some t1 =>
        match e.data with
        | none => (.rejected, t1)
        | some content =>
          if t1 (pathJoin outputDir e.fileName) = some .dir then
            extractEntries outputDir es true t1
          else
            extractEntries outputDir es rejected
              (t1.writeFile (pathJoin outputDir e.fileName) content)

/-- The function `extractZip(zipPath, outputDir)`: `archive` is what
`yauzl.open` yields for `zipPath`, the entries of the archive or (`none`) an
error. -/
def extractZip (archive : Option (List ZipEntry)) (outputDir : Path) (t : Tree) :
    Extraction × Tree :=
  match archive with
  | none => (.rejected, t)
  | some entries => extractEntries outputDir entries false t

/-- A tree that holds the directory `D` under the root and nothing else. -/
def onlyD : Tree := fun q => if q = [] ∨ q = ["D".toList] then some .dir else none

/-! ## ReleaseResolver and orchestrator: the asset step of `deploy` -/

/-- The constant `RELEASE_ASSET_NAME`. -/
def RELEASE_ASSET_NAME : Text := "firefox-chrome.zip".toList

/-- An element of `release.assets`. -/
structure Asset where
  name : Text
  browser_download_url : Text
deriving DecidableEq, Repr

/-- The release descriptor resolved by `getRelease`. -/
structure Release where
  tag_name : Text
  assets : List Asset
deriving DecidableEq, Repr

/-- The message of the error thrown by `deploy` when the release has no asset
of the configured name. -/
def assetNotFound (release : Release) : Text :=
  "Asset ".toList ++ RELEASE_ASSET_NAME ++ " not found in release ".toList ++ release.tag_name

/-- The statement `release.assets.find(a => a.name === RELEASE_ASSET_NAME)`
of `deploy` with the test that follows it: the asset, or the message of the
thrown error. -/
def selectAsset (release : Release) : Except Text Asset :=
  match release.assets.find? fun a => a.name = RELEASE_ASSET_NAME with
  | none => .error (assetNotFound release)
  | some asset => .ok asset

/-- How `deploy` ends: normally, or in its `catch` block with the message of
the error (which is logged before `process.exit(1)`). -/
inductive DeployResult where
  | completed
  | failed (message : Text)
deriving DecidableEq, Repr

/-- The function `deploy` up to the selection of the asset.  `release` is
what `await getRelease(version)` gives, the descriptor or the message of the
rejection; `proceed` stands for the steps after the asset has been found
(profile lookup, download, extraction, preferences, cleanup). -/
def deploy (release : Except Text Release) (proceed : Release → Asset → DeployResult) :
    DeployResult :=
  match release with
  | .error message => .failed message
  | .ok release =>
    match selectAsset release with
    | .error message => .failed message
    | .ok asset => proceed release asset

/-! ## Sample inputs -/

/-- The content `testPreferenceUpdate` of `scripts/test-deploy.js` writes to
`user.js` before the update. -/
def testUserJs : Text := "// Test user.js\n".toList

/-- A `user.js` that disables the preference in one statement on one line. -/
def disabledUserJs : Text :=
  "// Test user.js\nuser_pref(\"toolkit.legacyUserProfileCustomizations.stylesheets\", false);\n".toList

/-- A `user.js` with two statements of the preference. -/
def twoStatements : Text :=
  ("user_pref(\"toolkit.legacyUserProfileCustomizations.stylesheets\", false);\n" ++
    "user_pref(\"toolkit.legacyUserProfileCustomizations.stylesheets\", false);\n").toList

/-- A `user.js` that mentions the key in a comment only. -/
def commentOnly : Text :=
  "// toolkit.legacyUserProfileCustomizations.stylesheets\n".toList

/-- A `user.js` whose statement of the preference is broken over two lines. -/
def brokenStatement : Text :=
  "user_pref(\"toolkit.legacyUserProfileCustomizations.stylesheets\",\nfalse);".toList

/-- A profile root with two candidates that both contain `default`. -/
def twoDefaults : List DirEntry :=
  [⟨"a.default".toList, true⟩, ⟨"b.default-release".toList, true⟩]

/-- The profile root of a Linux user. -/
def sampleRoot : Text := "/home/u/.mozilla/firefox".toList

/-- A server with a chain of two redirects that ends in a success, and a
redirect that ends in a 404. -/
def sampleNet : Text → Exchange := fun url =>
  if url = "https://a".toList then
    .response 302 "Found".toList "https://b".toList [] .finish
  else if url = "https://b".toList then
    .response 301 "Moved Permanently".toList "https://c".toList [] .finish
  else if url = "https://c".toList then
    .response 200 "OK".toList [] "zip".toList .finish
  else if url = "https://x".toList then
    .response 302 "Found".toList "https://gone".toList [] .finish
  else .response 404 "Not Found".toList [] [] .finish

/-- The URLs of the successful chain of `sampleNet`. -/
def successChain : Nat → Text
  | 0 => "https://a".toList
  | 1 => "https://b".toList
  | _ => "https://c".toList

/-- The path the sample downloads write to. -/
def sampleZip : Text := "/tmp/firefox-extras-1/firefox-chrome.zip".toList

/-- A disk without files. -/
def emptyDisk : Disk := fun _ => none

/-- The archive of the specification: the directory `a/` and the file
`a/b.txt` with content `hi`. -/
def specArchive : List ZipEntry :=
  [⟨"a/".toList, some []⟩, ⟨"a/b.txt".toList, some "hi".toList⟩]

/-- An archive with two entries of the same name. -/
def duplicateArchive : List ZipEntry :=
  [⟨"a.txt".toList, some "1".toList⟩, ⟨"a.txt".toList, some "2".toList⟩]

/-- A release without the configured asset. -/
def sampleRelease : Release :=
  ⟨"v1.2.0".toList, [⟨"source.zip".toList, "https://x".toList⟩]⟩

/-! ## Lemmas: literals and matching -/

theorem dropLit_eq_some {p s r : Text} : dropLit p s = some r ↔ s = p ++ r := by
  induction p generalizing s with
  | nil => simp [dropLit, eq_comm]
  | cons a p ih =>
    cases s with
    | nil => simp [dropLit]
    | cons c cs =>
      by_cases h : a = c
      · subst h; simp [dropLit, ih]
      · simp [dropLit, h, Ne.symm h]

theorem dropLit_append (p r : Text) : dropLit p (p ++ r) = some r :=
  dropLit_eq_some.2 rfl

theorem dropLit_isSome {p s : Text} : (dropLit p s).isSome = true ↔ p <+: s := by
  rw [Option.isSome_iff_exists]
  constructor
  · rintro ⟨r, hr⟩; exact ⟨r, (dropLit_eq_some.1 hr).symm⟩
  · rintro ⟨r, hr⟩; exact ⟨r, dropLit_eq_some.2 hr.symm⟩

theorem includes_iff {s n : Text} : includes s n = true ↔ n <:+: s := by
  induction s with
  | nil =>
    cases n <;> simp [includes]
  | cons c cs ih =>
    simp only [includes, Bool.or_eq_true, dropLit_isSome, ih]
    rw [List.infix_cons_iff]

theorem matchGreedy_eq_some {s m rest : Text} :
    matchGreedy s = some (m, rest) ↔ IsStmt m ∧ s = m ++ rest := by
  constructor
  · intro h
    unfold matchGreedy at h
    cases h1 : dropLit reHead s with
    | none => simp [h1] at h
    | some r =>
      rw [h1] at h
      have hs := dropLit_eq_some.1 h1
      have hsp : ∀ c ∈ r.takeWhile isSpace, isSpace c = true := fun c hc =>
        List.mem_takeWhile_imp hc
      have hr : r = r.takeWhile isSpace ++ r.dropWhile isSpace :=
        (List.takeWhile_append_dropWhile _ _).symm
      simp only at h
      cases h2 : dropLit reTrue (r.dropWhile isSpace) with
      | some r2 =>
        rw [h2] at h
        simp only [Option.map_eq_some'] at h
        obtain ⟨r3, h3, h4⟩ := h
        have e2 := dropLit_eq_some.1 h2
        have e3 := dropLit_eq_some.1 h3
        simp only [Prod.mk.injEq] at h4
        obtain ⟨rfl, rfl⟩ := h4
        refine ⟨⟨_, reTrue, hsp, Or.inl rfl, rfl⟩, ?_⟩
        rw [hs]; conv_lhs => rw [hr, e2, e3]
        simp [List.append_assoc]
      | none =>
        rw [h2] at h
        simp only at h
        cases h2' : dropLit reFalse (r.dropWhile isSpace) with
        | none => simp [h2'] at h
        | some r2 =>
          rw [h2'] at h
          simp only [Option.map_eq_some'] at h
          obtain ⟨r3, h3, h4⟩ := h
          have e2 := dropLit_eq_some.1 h2'
          have e3 := dropLit_eq_some.1 h3
          simp only [Prod.mk.injEq] at h4
          obtain ⟨rfl, rfl⟩ := h4
          refine ⟨⟨_, reFalse, hsp, Or.inr rfl, rfl⟩, ?_⟩
          rw [hs]; conv_lhs => rw [hr, e2, e3]
          simp [List.append_assoc]
  · rintro ⟨⟨ws, bb, hws, hbb, rfl⟩, rfl⟩
    unfold matchGreedy
    have h1 : dropLit reHead (reHead ++ ws ++ bb ++ reClose ++ rest)
        = some (ws ++ (bb ++ (reClose ++ rest))) := by
      apply dropLit_eq_some.2; simp [List.append_assoc]
    rw [h1]
    have hbb0 : (bb ++ (reClose ++ rest)).takeWhile isSpace = [] ∧
        (bb ++ (reClose ++ rest)).dropWhile isSpace = bb ++ (reClose ++ rest) := by
      rcases hbb with rfl | rfl
      · constructor <;> simp [reTrue, List.takeWhile, List.dropWhile, isSpace]
      · constructor <;> simp [reFalse, List.takeWhile, List.dropWhile, isSpace]
    have ht : (ws ++ (bb ++ (reClose ++ rest))).takeWhile isSpace = ws := by
      rw [List.takeWhile_append_of_pos hws, hbb0.1, List.append_nil]
    have hd : (ws ++ (bb ++ (reClose ++ rest))).dropWhile isSpace
        = bb ++ (reClose ++ rest) := by
      rw [List.dropWhile_append_of_pos hws, hbb0.2]
    simp only [ht, hd]
    rcases hbb with rfl | rfl
    · rw [dropLit_append]; simp [dropLit_append]
    · have : dropLit reTrue (reFalse ++ (reClose ++ rest)) = none := by
        simp [reTrue, reFalse, dropLit]
      rw [this, dropLit_append]; simp [dropLit_append]

theorem run_seq (a b : Re) (s : Text) :
    (Re.seq a b).run s = (a.run s).flatMap fun rest => b.run rest := rfl

theorem run_alt (a b : Re) (s : Text) : (Re.alt a b).run s = a.run s ++ b.run s := rfl

theorem run_spaces (s : Text) : Re.spaces.run s = spacesRun s := rfl

theorem run_lits (l s : Text) : (Re.lits l).run s = (dropLit l s).toList := by
  induction l generalizing s with
  | nil => simp [Re.lits, Re.run, dropLit]
  | cons c l ih =>
    cases s with
    | nil => simp [Re.lits, Re.run, dropLit]
    | cons d cs =>
      by_cases h : d = c
      · subst h; simp [Re.lits, Re.run, dropLit, ih]
      · simp [Re.lits, Re.run, dropLit, h, Ne.symm h]

/-- After `\s*` a pattern that cannot start with white space sees the text
behind the longest run of white space only. -/
theorem flatMap_spacesRun (f : Text → List Text)
    (hf : ∀ c cs, isSpace c = true → f (c :: cs) = []) (s : Text) :
    (spacesRun s).flatMap f = f (s.dropWhile isSpace) := by
  induction s with
  | nil => simp [spacesRun]
  | cons c cs ih =>
    by_cases hc : isSpace c = true
    · simp [spacesRun, hc, ih, hf c cs hc, List.dropWhile]
    · simp [spacesRun, hc, List.dropWhile]

theorem run_boolAndClose_space (c : Char) (cs : Text) (hc : isSpace c = true) :
    boolAndClose.run (c :: cs) = [] := by
  have ht : dropLit reTrue (c :: cs) = none := by
    by_cases h : 't' = c
    · subst h; simp [isSpace] at hc
    · simp [reTrue, dropLit, h]
  have hf : dropLit reFalse (c :: cs) = none := by
    by_cases h : 'f' = c
    · subst h; simp [isSpace] at hc
    · simp [reFalse, dropLit, h]
  rw [boolAndClose, run_seq, run_alt, run_lits, run_lits, ht, hf]
  simp

/-- The backtracking matcher finds at most one way to match the pattern, the
one read without backtracking. -/
theorem run_prefPattern (s : Text) :
    prefPattern.run s = ((matchGreedy s).map Prod.snd).toList := by
  rw [prefPattern, run_seq, run_lits, matchGreedy]
  cases h1 : dropLit reHead s with
  | none => simp
  | some r =>
    simp only [Option.toList_some, List.flatMap_cons, List.flatMap_nil, List.append_nil]
    have := flatMap_spacesRun (fun rest => boolAndClose.run rest)
      (fun c cs hc => run_boolAndClose_space c cs hc) r
    rw [run_seq, run_spaces, this]
    simp only [boolAndClose, run_seq, run_alt, run_lits]
    cases h2 : dropLit reTrue (r.dropWhile isSpace) with
    | some r2 =>
      have h3 : dropLit reFalse (r.dropWhile isSpace) = none := by
        have e := dropLit_eq_some.1 h2
        rw [e]; simp [reTrue, reFalse, dropLit]
      cases h4 : dropLit reClose r2 <;> simp [h3, h4]
    | none =>
      cases h3 : dropLit reFalse (r.dropWhile isSpace) with
      | some r2 => cases h4 : dropLit reClose r2 <;> simp [h4]
      | none => simp

theorem matchHere_eq_matchGreedy (s : Text) : matchHere s = matchGreedy s := by
  rw [matchHere, run_prefPattern]
  cases h : matchGreedy s with
  | none => simp
  | some r =>
    obtain ⟨m, rest⟩ := r
    have hs := (matchGreedy_eq_some.1 h).2
    simp [hs]

theorem matchHere_eq_some {s m rest : Text} :
    matchHere s = some (m, rest) ↔ IsStmt m ∧ s = m ++ rest := by
  rw [matchHere_eq_matchGreedy]; exact matchGreedy_eq_some

theorem matchHere_isSome {s : Text} :
    (matchHere s).isSome = true ↔ ∃ t, IsStmt t ∧ t <+: s := by
  rw [Option.isSome_iff_exists]
  constructor
  · rintro ⟨⟨m, rest⟩, h⟩
    obtain ⟨h1, h2⟩ := matchHere_eq_some.1 h
    exact ⟨m, h1, ⟨rest, h2.symm⟩⟩
  · rintro ⟨t, h1, ⟨rest, h2⟩⟩
    exact ⟨(t, rest), matchHere_eq_some.2 ⟨h1, h2.symm⟩⟩

theorem matchHere_eq_none {s : Text} :
    matchHere s = none ↔ ∀ t, IsStmt t → ¬ t <+: s := by
  rw [← Option.not_isSome_iff_eq_none, matchHere_isSome]
  push_neg; rfl

theorem IsStmt.startsWithHead {t : Text} (h : IsStmt t) : reHead <+: t := by
  obtain ⟨ws, bb, -, -, rfl⟩ := h
  exact ⟨ws ++ bb ++ reClose, by simp [List.append_assoc]⟩

theorem isStmt_prefLine : IsStmt prefLine :=
  ⟨[' '], reTrue, by simp [isSpace], Or.inl rfl, by decide⟩

theorem prefKey_infix_reHead : prefKey <:+: reHead :=
  ⟨"user_pref(\"".toList, "\",".toList, by decide⟩

theorem IsStmt.containsKey {t : Text} (h : IsStmt t) : prefKey <:+: t :=
  prefKey_infix_reHead.trans h.startsWithHead.isInfix

/-- A character that occurs once on each side of an equation of two texts
stands at the same position on both sides. -/
theorem eq_of_single_occurrence {c : Char} {x y x' y' : Text}
    (h : x ++ c :: y = x' ++ c :: y') (hx : c ∉ x) (hy : c ∉ y) : x = x' := by
  rcases List.append_eq_append_iff.1 h with ⟨a, h1, h2⟩ | ⟨a, h1, h2⟩
  · cases a with
    | nil => simpa using h1.symm
    | cons d a =>
      simp only [List.cons_append, List.cons.injEq] at h2
      exact absurd (h2.2 ▸ (by simp : c ∈ a ++ c :: y')) hy
  · cases a with
    | nil => simpa using h1
    | cons d a =>
      simp only [List.cons_append, List.cons.injEq] at h2
      have hd : d = c := h2.1.symm
      subst hd
      exact absurd (h1 ▸ (by simp : d ∈ x' ++ d :: a)) hx

/-- A prefix without the character `c` of a text `x ++ c :: z` lies in `x`. -/
theorem prefix_of_not_mem {c : Char} {p x z : Text}
    (h : p <+: x ++ c :: z) (hc : c ∉ p) : p <+: x := by
  obtain ⟨w, hw⟩ := h
  rcases List.append_eq_append_iff.1 hw with ⟨a, h1, h2⟩ | ⟨a, h1, h2⟩
  · exact ⟨a, h1.symm⟩
  · cases a with
    | nil => exact ⟨[], by simpa using h1⟩
    | cons d a =>
      simp only [List.cons_append, List.cons.injEq] at h2
      have hd : d = c := h2.1.symm
      subst hd
      exact absurd (h1 ▸ (by simp : d ∈ x ++ d :: a)) hc

/-- The head of the pattern around its only opening parenthesis. -/
theorem reHead_split : reHead = "user_pref".toList ++
    '(' :: "\"toolkit.legacyUserProfileCustomizations.stylesheets\",".toList := by
  decide

/-- A statement that starts before a copy of the head of the pattern ends
before that copy does: statements do not overlap a later head. -/
theorem IsStmt.prefix_of_before_head {t b y : Text} (ht : IsStmt t) (hb : b ≠ [])
    (hp : t <+: b ++ (reHead ++ y)) : t <+: b ++ reHead := by
  have hbh : b ++ reHead <+: b ++ (reHead ++ y) := ⟨y, by simp⟩
  rcases Nat.le_total t.length (b ++ reHead).length with hl | hl
  · exact List.prefix_of_prefix_length_le hp hbh hl
  · exfalso
    have hpre : b ++ reHead <+: t := List.prefix_of_prefix_length_le hbh hp hl
    obtain ⟨ws, bb, hws, hbb, rfl⟩ := ht
    obtain ⟨z, hz⟩ := hpre
    rw [reHead_split] at hz
    have hz' : "user_pref".toList ++ '(' ::
        ("\"toolkit.legacyUserProfileCustomizations.stylesheets\",".toList ++ ws ++ bb ++ reClose)
        = (b ++ "user_pref".toList) ++ '(' ::
        ("\"toolkit.legacyUserProfileCustomizations.stylesheets\",".toList ++ z) := by
      simpa [List.append_assoc] using hz.symm
    have hnot : '(' ∉ "\"toolkit.legacyUserProfileCustomizations.stylesheets\",".toList
        ++ ws ++ bb ++ reClose := by
      simp only [List.mem_append, not_or]
      refine ⟨⟨⟨by decide, fun hm => ?_⟩, ?_⟩, by decide⟩
      · have := hws _ hm
        simp [isSpace] at this
      · rcases hbb with rfl | rfl <;> decide
    have := eq_of_single_occurrence hz' (by decide) hnot
    have hlen := congrArg List.length this
    simp only [List.length_append] at hlen
    exact hb (List.length_eq_zero.1 (by omega))

theorem execPref_eq_some {s pre m post : Text} (h : execPref s = some (pre, m, post)) :
    s = pre ++ (m ++ post) ∧ matchHere (m ++ post) = some (m, post) ∧
      ∀ a b, pre = a ++ b → b ≠ [] → matchHere (b ++ (m ++ post)) = none := by
  induction s generalizing pre with
  | nil => simp [execPref] at h
  | cons c cs ih =>
    unfold execPref at h
    cases hm : matchHere (c :: cs) with
    | some r =>
      obtain ⟨m', rest⟩ := r
      rw [hm] at h
      simp only [Option.some.injEq, Prod.mk.injEq] at h
      obtain ⟨rfl, rfl, rfl⟩ := h
      have := (matchHere_eq_some.1 hm).2
      refine ⟨by simpa using this, by rw [← this]; exact hm, ?_⟩
      intro a b hab hb
      simp only [List.nil_eq, List.append_eq_nil] at hab
      exact absurd hab.2 hb
    | none =>
      rw [hm] at h
      simp only [Option.map_eq_some'] at h
      obtain ⟨⟨p, m', r⟩, hr, he⟩ := h
      simp only [Prod.mk.injEq] at he
      obtain ⟨rfl, rfl, rfl⟩ := he
      obtain ⟨e1, e2, e3⟩ := ih hr
      refine ⟨by simp [e1], e2, ?_⟩
      intro a b hab hb
      cases a with
      | nil =>
        simp only [List.nil_append] at hab
        subst hab
        rw [← hm, e1]; simp
      | cons d a =>
        simp only [List.cons_append, List.cons.injEq] at hab
        exact e3 a b hab.2 hb

theorem execPref_append {pre t m post : Text} (hm : matchHere t = some (m, post))
    (hpre : ∀ a b, pre = a ++ b → b ≠ [] → matchHere (b ++ t) = none) :
    execPref (pre ++ t) = some (pre, m, post) := by
  induction pre with
  | nil =>
    cases t with
    | nil =>
      have := (matchHere_eq_some.1 hm).1.startsWithHead
      have h2 := (matchHere_eq_some.1 hm).2
      simp only [List.nil_eq, List.append_eq_nil] at h2
      rw [h2.1] at this
      simp [reHead] at this
    | cons c cs => simp [execPref, hm]
  | cons c pre ih =>
    have h0 : matchHere (c :: pre ++ t) = none := hpre [] (c :: pre) rfl (by simp)
    have := ih (fun a b hab hb => hpre (c :: a) b (by simp [hab]) hb)
    simp only [List.cons_append] at h0 ⊢
    simp [execPref, h0, this]

theorem execPref_eq_none {s : Text} (h : execPref s = none) :
    ∀ a b, s = a ++ b → matchHere b = none := by
  induction s with
  | nil =>
    intro a b hab
    simp only [List.nil_eq, List.append_eq_nil] at hab
    rw [hab.2]
    apply matchHere_eq_none.2
    intro t ht hp
    have := ht.startsWithHead.trans hp
    simp [reHead] at this
  | cons c cs ih =>
    unfold execPref at h
    cases hm : matchHere (c :: cs) with
    | some r => rw [hm] at h; simp at h
    | none =>
      rw [hm] at h
      simp only [Option.map_eq_none'] at h
      intro a b hab
      cases a with
      | nil => simp only [List.nil_append] at hab; rw [← hab]; exact hm
      | cons d a =>
        simp only [List.cons_append, List.cons.injEq] at hab
        exact ih h a b hab.2

theorem matchHere_prefLine (post : Text) :
    matchHere (prefLine ++ post) = some (prefLine, post) :=
  matchHere_eq_some.2 ⟨isStmt_prefLine, rfl⟩

theorem prefLine_eq_head : prefLine = reHead ++ " true);".toList := by decide

theorem includes_prefLine (pre post : Text) :
    includes (pre ++ (prefLine ++ post)) prefKey = true :=
  includes_iff.2 (isStmt_prefLine.containsKey.trans
    ((List.infix_append' pre prefLine post)))

/-- Replacing the leftmost statement by `prefLine` leaves `prefLine` as the
leftmost statement. -/
theorem execPref_replaced {c pre m post : Text} (h : execPref c = some (pre, m, post)) :
    execPref (pre ++ (prefLine ++ post)) = some (pre, prefLine, post) := by
  obtain ⟨-, hm, hno⟩ := execPref_eq_some h
  apply execPref_append (matchHere_prefLine post)
  intro a b hab hb
  have hnone := hno a b hab hb
  obtain ⟨y, hy⟩ := (matchHere_eq_some.1 hm).1.startsWithHead
  rw [matchHere_eq_none] at hnone ⊢
  intro t ht hp
  apply hnone t ht
  rw [prefLine_eq_head, List.append_assoc] at hp
  have h1 := ht.prefix_of_before_head hb hp
  refine h1.trans ⟨y ++ post, ?_⟩
  rw [← hy]; simp [List.append_assoc]

theorem replacePref_replacePref (c : Text) :
    replacePref (replacePref c) = replacePref c := by
  cases h : execPref c with
  | none => simp [replacePref, h]
  | some r =>
    obtain ⟨pre, m, post⟩ := r
    have h2 := execPref_replaced h
    simp only [replacePref, h, List.append_assoc, h2]

/-- No statement starts inside a text without the key, even when a line feed
and more text follow. -/
theorem matchHere_none_of_not_includes {c a b z : Text}
    (hc : includes c prefKey = false) (hab : c ++ ['\n'] = a ++ b) (hb : b ≠ []) :
    matchHere (b ++ z) = none := by
  rw [matchHere_eq_none]
  intro t ht hp
  -- `b` is a suffix of `c` followed by the line feed
  obtain ⟨b', hc', rfl⟩ : ∃ b', c = a ++ b' ∧ b = b' ++ ['\n'] := by
    rcases List.eq_nil_or_concat b with h | ⟨b', x, rfl⟩
    · exact absurd h hb
    · rw [List.concat_eq_append, ← List.append_assoc] at hab
      obtain ⟨e1, e2⟩ := List.append_inj' hab rfl
      exact ⟨b', e1, by rw [List.concat_eq_append, e2]⟩
  have hhead : reHead <+: b' ++ '\n' :: z := by
    have := ht.startsWithHead.trans hp
    simpa [List.append_assoc] using this
  have hin := prefix_of_not_mem hhead (by decide)
  have : prefKey <:+: c := by
    rw [hc']
    exact (prefKey_infix_reHead.trans hin.isInfix).trans (List.infix_append' a b' [] |>.trans (by simp))
  rw [← includes_iff, hc] at this
  exact absurd this (by simp)

theorem patchContent_idem (c : Text) : patchContent (patchContent c) = patchContent c := by
  by_cases hc : includes c prefKey = true
  · have h1 : patchContent c = replacePref c := by simp [patchContent, hc]
    rw [h1]
    cases h : execPref c with
    | none =>
      have : replacePref c = c := by simp [replacePref, h]
      rw [this, h1, this]
    | some r =>
      obtain ⟨pre, m, post⟩ := r
      have hr : replacePref c = pre ++ (prefLine ++ post) := by
        simp [replacePref, h, List.append_assoc]
      have hi := includes_prefLine pre post
      rw [← hr] at hi
      simp only [patchContent, hi, if_true]
      exact replacePref_replacePref c
  · have hc' : includes c prefKey = false := by simpa using hc
    have h1 : patchContent c = (c ++ ['\n']) ++ (prefLine ++ ['\n']) := by
      simp [patchContent, hc', List.append_assoc]
    have hi := includes_prefLine (c ++ ['\n']) ['\n']
    have he : execPref ((c ++ ['\n']) ++ (prefLine ++ ['\n']))
        = some (c ++ ['\n'], prefLine, ['\n']) :=
      execPref_append (matchHere_prefLine _)
        (fun a b hab hb => matchHere_none_of_not_includes hc' hab hb)
    rw [h1]
    have h2 : patchContent ((c ++ ['\n']) ++ (prefLine ++ ['\n']))
        = replacePref ((c ++ ['\n']) ++ (prefLine ++ ['\n'])) := by
      simp only [patchContent, hi, if_true]
    rw [h2]
    simp only [replacePref, he]
    simp only [List.append_assoc]

/-! ## Lemmas: lines -/

theorem splitLines_ne_nil (s : Text) : splitLines s ≠ [] := by
  cases s with
  | nil => simp [splitLines]
  | cons c cs =>
    unfold splitLines
    split
    · simp
    · split <;> simp

theorem splitLines_cons_lf (s : Text) : splitLines ('\n' :: s) = [] :: splitLines s := by
  simp [splitLines]

theorem splitLines_cons_of_ne {c : Char} (hc : c ≠ '\n') {s l : Text} {ls : List Text}
    (h : splitLines s = l :: ls) : splitLines (c :: s) = (c :: l) :: ls := by
  simp [splitLines, hc, h]

/-- A text and a line feed in front of more text: the lines of both. -/
theorem splitLines_append_lf (a b : Text) :
    splitLines (a ++ '\n' :: b) = splitLines a ++ splitLines b := by
  induction a with
  | nil => simp [splitLines]
  | cons c a ih =>
    by_cases hc : c = '\n'
    · subst hc
      simp only [List.cons_append, splitLines_cons_lf, ih]
    · obtain ⟨l, ls, hl⟩ := List.exists_cons_of_ne_nil (splitLines_ne_nil a)
      rw [List.cons_append, splitLines_cons_of_ne hc (by rw [ih, hl]; rfl),
        splitLines_cons_of_ne hc hl]
      simp

/-- A text without a line feed in front of more text extends its first line. -/
theorem splitLines_append_of_not_mem {x : Text} (hx : '\n' ∉ x) {s l : Text}
    {ls : List Text} (h : splitLines s = l :: ls) :
    splitLines (x ++ s) = (x ++ l) :: ls := by
  induction x with
  | nil => simpa using h
  | cons c x ih =>
    simp only [List.mem_cons, not_or] at hx
    rw [List.cons_append, splitLines_cons_of_ne (Ne.symm hx.1) (ih hx.2)]
    rfl

/-- The first line of a text is a prefix of the text. -/
theorem head_splitLines_isPrefix {s l : Text} {ls : List Text} (hl : splitLines s = l :: ls) :
    l <+: s := by
  induction s generalizing l ls with
  | nil =>
    simp only [splitLines, List.cons.injEq] at hl
    rw [← hl.1]
  | cons d s ih2 =>
    by_cases hd : d = '\n'
    · subst hd
      rw [splitLines_cons_lf, List.cons.injEq] at hl
      rw [← hl.1]; exact List.nil_prefix
    · obtain ⟨l2, ls2, hl2⟩ := List.exists_cons_of_ne_nil (splitLines_ne_nil s)
      rw [splitLines_cons_of_ne hd hl2, List.cons.injEq] at hl
      rw [← hl.1]
      exact (List.prefix_cons_inj d).2 (ih2 hl2)

/-- Every line of a text occurs in the text. -/
theorem infix_of_mem_splitLines {s x : Text} (h : x ∈ splitLines s) : x <:+: s := by
  induction s generalizing x with
  | nil =>
    simp only [splitLines, List.mem_singleton] at h
    subst h; exact List.infix_refl _
  | cons c s ih =>
    by_cases hc : c = '\n'
    · subst hc
      rw [splitLines_cons_lf, List.mem_cons] at h
      rcases h with rfl | h
      · exact List.nil_infix
      · exact (ih h).trans (List.suffix_cons _ _).isInfix
    · obtain ⟨l, ls, hl⟩ := List.exists_cons_of_ne_nil (splitLines_ne_nil s)
      rw [splitLines_cons_of_ne hc hl, List.mem_cons] at h
      have hlp : l <+: s := head_splitLines_isPrefix hl
      rcases h with rfl | h
      · exact ((List.prefix_cons_inj c).2 hlp).isInfix
      · exact (ih (hl ▸ List.mem_cons_of_mem _ h)).trans (List.suffix_cons _ _).isInfix

/-- Replacing a text `m` that contains the key and no line feed by `prefLine`
changes at most one line, and that line contains the key. -/
theorem splitLines_replace_rel {m : Text} (hm : '\n' ∉ m) (hk : prefKey <:+: m)
    (pre post : Text) :
    ∃ l ls l' ls', splitLines (pre ++ (m ++ post)) = l :: ls ∧
      splitLines (pre ++ (prefLine ++ post)) = l' :: ls' ∧
      (l = l' ∨ includes l prefKey = true) ∧
      (ls.filter fun x => !includes x prefKey).Sublist ls' := by
  induction pre with
  | nil =>
    obtain ⟨h, t, ht⟩ := List.exists_cons_of_ne_nil (splitLines_ne_nil post)
    refine ⟨m ++ h, t, prefLine ++ h, t, ?_, ?_, Or.inr ?_, List.filter_sublist _⟩
    · simpa using splitLines_append_of_not_mem hm ht
    · simpa using splitLines_append_of_not_mem (by decide : '\n' ∉ prefLine) ht
    · exact includes_iff.2 (hk.trans (List.prefix_append _ _).isInfix)
  | cons c pre ih =>
    obtain ⟨l, ls, l', ls', h1, h2, h3, h4⟩ := ih
    by_cases hc : c = '\n'
    · subst hc
      refine ⟨[], l :: ls, [], l' :: ls', ?_, ?_, Or.inl rfl, ?_⟩
      · rw [List.cons_append, splitLines_cons_lf, h1]
      · rw [List.cons_append, splitLines_cons_lf, h2]
      · rcases h3 with rfl | h3
        · by_cases hl : includes l prefKey = true
          · simp only [List.filter_cons, hl, Bool.not_true, Bool.false_eq_true, if_false]
            exact h4.cons _
          · simp only [List.filter_cons, hl, Bool.not_eq_true', Bool.not_eq_true] at hl ⊢
            simp only [hl, Bool.not_false, if_true]
            exact h4.cons₂ _
        · simp only [List.filter_cons, h3, Bool.not_true, Bool.false_eq_true, if_false]
          exact h4.cons _
    · refine ⟨c :: l, ls, c :: l', ls', ?_, ?_, ?_, h4⟩
      · rw [List.cons_append, splitLines_cons_of_ne hc h1]
      · rw [List.cons_append, splitLines_cons_of_ne hc h2]
      · rcases h3 with rfl | h3
        · exact Or.inl rfl
        · exact Or.inr (includes_iff.2 ((includes_iff.1 h3).trans
            (List.suffix_cons _ _).isInfix))

theorem keyFreeLines_sublist_replacePref (c : Text)
    (h : ∀ pre m post, execPref c = some (pre, m, post) → '\n' ∉ m) :
    (keyFreeLines c).Sublist (splitLines (replacePref c)) := by
  cases he : execPref c with
  | none =>
    simp only [replacePref, he]
    exact List.filter_sublist _
  | some r =>
    obtain ⟨pre, m, post⟩ := r
    obtain ⟨hc, hm, -⟩ := execPref_eq_some he
    have hk := (matchHere_eq_some.1 hm).1.containsKey
    obtain ⟨l, ls, l', ls', h1, h2, h3, h4⟩ :=
      splitLines_replace_rel (h pre m post he) hk pre post
    simp only [replacePref, he, keyFreeLines, List.append_assoc]
    rw [hc, h1, h2]
    rcases h3 with rfl | h3
    · by_cases hl : includes l prefKey = true
      · simp only [List.filter_cons, hl, Bool.not_true, Bool.false_eq_true, if_false]
        exact h4.cons _
      · simp only [Bool.not_eq_true] at hl
        simp only [List.filter_cons, hl, Bool.not_false, if_true]
        exact h4.cons₂ _
    · simp only [List.filter_cons, h3, Bool.not_true, Bool.false_eq_true, if_false]
      exact h4.cons _

theorem keyFreeLines_sublist_patchContent (c : Text)
    (h : ∀ pre m post, execPref c = some (pre, m, post) → '\n' ∉ m) :
    (keyFreeLines c).Sublist (splitLines (patchContent c)) := by
  by_cases hc : includes c prefKey = true
  · simp only [patchContent, hc, if_true]
    exact keyFreeLines_sublist_replacePref c h
  · simp only [patchContent, hc, if_false, Bool.false_eq_true]
    rw [List.cons_append, splitLines_append_lf]
    exact (List.filter_sublist _).trans (List.sublist_append_left _ _)

/-! ## Lemmas: counting statements and matching lines -/

theorem execPref_isSome_of_suffix {a b : Text} (h : (matchHere b).isSome = true) :
    (execPref (a ++ b)).isSome = true := by
  cases hn : execPref (a ++ b) with
  | some r => rfl
  | none =>
    rw [execPref_eq_none hn a b rfl] at h
    simp at h

theorem lineMatches_of_stmt {t x : Text} (ht : IsStmt t) (hx : t <:+: x) :
    lineMatches x = true := by
  obtain ⟨a, b, rfl⟩ := hx
  rw [List.append_assoc]
  exact execPref_isSome_of_suffix (matchHere_isSome.2 ⟨t, ht, List.prefix_append _ _⟩)

theorem containsKey_of_lineMatches {x : Text} (h : lineMatches x = true) : prefKey <:+: x := by
  obtain ⟨⟨pre, m, post⟩, he⟩ := Option.isSome_iff_exists.1 h
  obtain ⟨hx, hm, -⟩ := execPref_eq_some he
  rw [hx]
  exact (matchHere_eq_some.1 hm).1.containsKey.trans
    ((List.prefix_append _ _).isInfix.trans (List.suffix_append _ _).isInfix)

theorem countStatements_suffix_le (a b : Text) :
    countStatements b ≤ countStatements (a ++ b) := by
  induction a with
  | nil => simp
  | cons c a ih =>
    rw [List.cons_append, countStatements]
    omega

theorem countStatements_pos {b : Text} (h : (matchHere b).isSome = true) :
    1 ≤ countStatements b := by
  cases b with
  | nil =>
    obtain ⟨t, ht, hp⟩ := matchHere_isSome.1 h
    have := ht.startsWithHead.trans hp
    simp [reHead] at this
  | cons c b => simp [countStatements, h]

/-- A line with a statement in a text gives the text a statement. -/
theorem countStatements_pos_of_line {s x : Text} (hx : x <:+: s)
    (hm : lineMatches x = true) : 1 ≤ countStatements s := by
  obtain ⟨⟨u, t, v⟩, he⟩ := Option.isSome_iff_exists.1 hm
  obtain ⟨hxe, hmt, -⟩ := execPref_eq_some he
  obtain ⟨p, q, rfl⟩ := hx
  have ht := (matchHere_eq_some.1 hmt).1
  have h1 : (matchHere (t ++ (v ++ q))).isSome = true :=
    matchHere_isSome.2 ⟨t, ht, List.prefix_append _ _⟩
  have h2 := countStatements_pos h1
  have h3 := countStatements_suffix_le (p ++ u) (t ++ (v ++ q))
  have e : p ++ x ++ q = (p ++ u) ++ (t ++ (v ++ q)) := by
    rw [hxe]; simp [List.append_assoc]
  rw [e]; omega

/-- With a single statement in the content, nothing after the leftmost
statement is a statement. -/
theorem countStatements_post {c pre m post : Text} (he : execPref c = some (pre, m, post))
    (h1 : countStatements c = 1) : countStatements post = 0 := by
  obtain ⟨hc, hm, -⟩ := execPref_eq_some he
  have hsome : (matchHere (m ++ post)).isSome = true := by rw [hm]; rfl
  have hle := countStatements_suffix_le pre (m ++ post)
  rw [← hc, h1] at hle
  cases hmp : m ++ post with
  | nil =>
    rw [hmp] at hsome
    have := countStatements_pos hsome
    simp [countStatements] at this
  | cons d rest =>
    rw [hmp] at hsome hle
    simp only [countStatements, hsome, if_true] at hle
    have hsuf : post <:+ rest := by
      cases m with
      | nil =>
        have := (matchHere_eq_some.1 hm).1.startsWithHead
        simp [reHead] at this
      | cons d' m' =>
        simp only [List.cons_append, List.cons.injEq] at hmp
        exact ⟨m', hmp.2⟩
    obtain ⟨w, hw⟩ := hsuf
    have := countStatements_suffix_le w post
    rw [hw] at this
    omega

theorem lineMatches_nil : lineMatches [] = false := by
  simp [lineMatches, execPref]

/-- Where no statement starts in front of `prefLine`, the text from there on
has one line with a statement. -/
theorem matchingLines_before {post : Text} (hpost : countStatements post = 0) (b : Text)
    (hb : ∀ a' b', b = a' ++ b' → b' ≠ [] → matchHere (b' ++ (prefLine ++ post)) = none) :
    matchingLines (b ++ (prefLine ++ post)) = 1 := by
  induction b with
  | nil =>
    obtain ⟨h, t, ht⟩ := List.exists_cons_of_ne_nil (splitLines_ne_nil post)
    have hs : splitLines ([] ++ (prefLine ++ post)) = (prefLine ++ h) :: t := by
      simpa using splitLines_append_of_not_mem (by decide : '\n' ∉ prefLine) ht
    have hl : lineMatches (prefLine ++ h) = true :=
      lineMatches_of_stmt isStmt_prefLine (List.prefix_append _ _).isInfix
    have ht0 : t.filter lineMatches = [] := by
      rw [List.filter_eq_nil_iff]
      intro x hx hxm
      have hin : x <:+: post := infix_of_mem_splitLines (ht ▸ List.mem_cons_of_mem _ hx)
      have := countStatements_pos_of_line hin hxm
      omega
    simp only [matchingLines, hs, List.filter_cons, hl, if_true, ht0, List.length_singleton]
  | cons c b ih =>
    have ih' := ih (fun a' b' hab hb' => hb (c :: a') b' (by simp [hab]) hb')
    obtain ⟨l, ls, hl⟩ := List.exists_cons_of_ne_nil
      (splitLines_ne_nil (b ++ (prefLine ++ post)))
    by_cases hc : c = '\n'
    · subst hc
      simp only [matchingLines, List.cons_append, splitLines_cons_lf, List.filter_cons,
        lineMatches_nil, Bool.false_eq_true, if_false]
      exact ih'
    · have hs := splitLines_cons_of_ne hc hl
      have hnone : matchHere (c :: l) = none := by
        rw [matchHere_eq_none]
        intro t ht hp
        have h0 := hb [] (c :: b) rfl (by simp)
        rw [matchHere_eq_none] at h0
        exact h0 t ht (hp.trans (by
          rw [List.cons_append]
          exact (List.prefix_cons_inj c).2 (head_splitLines_isPrefix hl)))
      have hlm : lineMatches (c :: l) = lineMatches l := by
        simp only [lineMatches, execPref, hnone, Option.isSome_map']
      simp only [matchingLines, hl, List.filter_cons] at ih'
      simp only [matchingLines, List.cons_append, hs, List.filter_cons, hlm]
      by_cases hq : lineMatches l = true
      · simp only [hq, if_true, List.length_cons] at ih' ⊢
        exact ih'
      · simp only [hq, if_false] at ih' ⊢
        exact ih'

theorem matchingLines_replacePref {c : Text} (h1 : countStatements c = 1) :
    matchingLines (replacePref c) = 1 := by
  cases he : execPref c with
  | none =>
    exfalso
    have : ∀ s : Text, (∀ a b, s = a ++ b → matchHere b = none) → countStatements s = 0 := by
      intro s
      induction s with
      | nil => intro _; rfl
      | cons d s ih =>
        intro hs
        have h0 := hs [] (d :: s) rfl
        simp only [countStatements, h0, Option.isSome_none, Bool.false_eq_true, if_false,
          Nat.zero_add]
        exact ih (fun a b hab => hs (d :: a) b (by simp [hab]))
    rw [this c (execPref_eq_none he)] at h1
    omega
  | some r =>
    obtain ⟨pre, m, post⟩ := r
    have hpost := countStatements_post he h1
    have hrep := execPref_replaced he
    obtain ⟨-, -, hno⟩ := execPref_eq_some hrep
    simp only [replacePref, he, List.append_assoc]
    exact matchingLines_before hpost pre hno

theorem matchingLines_appended {c : Text} (hc : includes c prefKey = false) :
    matchingLines (c ++ ('\n' :: prefLine ++ ['\n'])) = 1 := by
  have h0 : (splitLines c).filter lineMatches = [] := by
    rw [List.filter_eq_nil_iff]
    intro x hx hxm
    have := (containsKey_of_lineMatches hxm).trans (infix_of_mem_splitLines hx)
    rw [← includes_iff, hc] at this
    simp at this
  have h1 : splitLines (prefLine ++ ['\n']) = [prefLine, []] := by
    rw [splitLines_append_lf]
    have := splitLines_append_of_not_mem (by decide : '\n' ∉ prefLine)
      (show splitLines [] = [] :: [] from rfl)
    simp only [List.append_nil] at this
    rw [this]; rfl
  have h2 : lineMatches prefLine = true :=
    lineMatches_of_stmt isStmt_prefLine (List.infix_refl _)
  rw [matchingLines, List.cons_append, splitLines_append_lf, h1, List.filter_append, h0]
  simp [List.filter_cons, h2, lineMatches_nil]

/-! ## Lemmas: the sort of `findActiveProfile` -/

theorem compareProfiles_neg (a b : Text) :
    compareProfiles a b < 0 ↔ includes a defaultMark = true := by
  unfold compareProfiles
  by_cases ha : includes a defaultMark = true
  · simp [ha]
  · by_cases hb : includes b defaultMark = true <;> simp [ha, hb]

theorem searchPos_default {work : List Text} {pivot : Text}
    (hp : includes pivot defaultMark = true) (fuel left right : Nat) :
    searchPos compareProfiles work pivot fuel left right = left := by
  induction fuel generalizing right with
  | zero => rfl
  | succ fuel ih =>
    simp only [searchPos]
    split
    · rw [if_pos ((compareProfiles_neg _ _).2 hp)]
      exact ih _
    · rfl

theorem searchPos_other {work : List Text} {pivot : Text}
    (hp : includes pivot defaultMark = false) (fuel left right : Nat)
    (hlr : left ≤ right) (hf : right - left ≤ fuel) :
    searchPos compareProfiles work pivot fuel left right = right := by
  induction fuel generalizing left with
  | zero => simp only [searchPos]; omega
  | succ fuel ih =>
    simp only [searchPos]
    split
    · have : ¬ compareProfiles pivot (work.getD (left + (right - left) / 2) pivot) < 0 := by
        rw [compareProfiles_neg, hp]; simp
      rw [if_neg this]
      apply ih <;> omega
    · omega

theorem insertPivot_default {front : List Text} {pivot : Text}
    (hp : includes pivot defaultMark = true) :
    insertPivot compareProfiles front pivot = pivot :: front := by
  simp [insertPivot, searchPos_default hp]

theorem insertPivot_other {front : List Text} {pivot : Text}
    (hp : includes pivot defaultMark = false) :
    insertPivot compareProfiles front pivot = front ++ [pivot] := by
  simp [insertPivot, searchPos_other hp front.length 0 front.length (Nat.zero_le _) (by omega)]

theorem HeadDefault.insertPivot {front : List Text} (h : HeadDefault front) (pivot : Text) :
    HeadDefault (insertPivot compareProfiles front pivot) := by
  by_cases hp : includes pivot defaultMark = true
  · rw [insertPivot_default hp]
    exact fun _ => ⟨pivot, front, rfl, hp⟩
  · have hp' : includes pivot defaultMark = false := by simpa using hp
    rw [insertPivot_other hp']
    rintro ⟨x, hx, hxd⟩
    rw [List.mem_append, List.mem_singleton] at hx
    rcases hx with hx | rfl
    · obtain ⟨hd, t, rfl, hhd⟩ := h ⟨x, hx, hxd⟩
      exact ⟨hd, t ++ [pivot], rfl, hhd⟩
    · exact absurd hxd hp

theorem HeadDefault.binaryInsertionSort {run : List Text} (h : HeadDefault run)
    (rest : List Text) : HeadDefault (binaryInsertionSort compareProfiles run rest) := by
  induction rest generalizing run with
  | nil => simpa [FirefoxExtras.binaryInsertionSort] using h
  | cons p rest ih =>
    simp only [FirefoxExtras.binaryInsertionSort, List.foldl_cons]
    exact ih (h.insertPivot p)

theorem Disk.unlink_write (d : Disk) (path c : Text) :
    (d.write path c).unlink path = d.unlink path := by
  funext q; by_cases h : q = path <;> simp [Disk.unlink, Disk.write, h]

theorem Disk.unlink_unlink (d : Disk) (path : Text) :
    (d.unlink path).unlink path = d.unlink path := by
  funext q; by_cases h : q = path <;> simp [Disk.unlink, h]

/-- A redirect costs one request and leaves no file behind. -/
theorem downloadFile_redirect {net : Text → Exchange} {url location : Text}
    (h : (net url).redirectsTo location) (outputPath : Text) (fuel : Nat) (disk : Disk) :
    downloadFile net outputPath (fuel + 1) url disk
      = downloadFile net outputPath fuel location (disk.unlink outputPath) := by
  obtain ⟨sc, sm, w, o, hsc, he⟩ := h
  simp only [downloadFile, he, hsc, if_true, Disk.unlink_write]

/-- A chain of `n` redirects costs `n` requests. -/
theorem downloadFile_chain {net : Text → Exchange} (urls : Nat → Text) (n : Nat)
    (hred : ∀ i, i < n → (net (urls i)).redirectsTo (urls (i + 1)))
    (outputPath : Text) (fuel : Nat) (disk : Disk) :
    downloadFile net outputPath (n + fuel) (urls 0) disk
      = downloadFile net outputPath fuel (urls n)
          (if n = 0 then disk else disk.unlink outputPath) := by
  induction n generalizing disk fuel with
  | zero => simp
  | succ n ih =>
    have ih' := ih (fun i hi => hred i (Nat.lt_succ_of_lt hi)) (fuel + 1) disk
    have e : n + 1 + fuel = n + (fuel + 1) := by omega
    rw [e, ih', downloadFile_redirect (hred n (Nat.lt_succ_self n))]
    by_cases hn : n = 0
    · simp [hn]
    · simp [hn, Disk.unlink_unlink]

/-- On a redirect loop the promise never settles. -/
theorem downloadFile_redirectLoop (outputPath : Text) (fuel : Nat) (url : Text)
    (disk : Disk) : downloadFile redirectLoop outputPath fuel url disk = none := by
  induction fuel generalizing disk with
  | zero => rfl
  | succ fuel ih =>
    simp only [downloadFile, redirectLoop, true_or, if_true]
    exact ih _

/-! ## Lemmas: `extractZip` -/

theorem mkdirRecursive_eq_some {t t1 : Tree} {p : Path} (h : mkdirRecursive t p = some t1) :
    (∀ q, q <+: p → isFileAt t q = false) ∧
      t1 = fun q => if q.isPrefixOf p then some .dir else t q := by
  unfold mkdirRecursive at h
  split at h
  · simp at h
  · rename_i hany
    simp only [Option.some.injEq] at h
    refine ⟨fun q hq => ?_, h.symm⟩
    simp only [List.any_eq_true, List.mem_inits, not_exists, not_and] at hany
    simpa using hany q hq

theorem mkdirRecursive_ancestor {t t1 : Tree} {p q : Path} (h : mkdirRecursive t p = some t1)
    (hq : q <+: p) : t1 q = some .dir := by
  rw [(mkdirRecursive_eq_some h).2]
  simp [List.isPrefixOf_iff_prefix.2 hq]

theorem mkdirRecursive_dir {t t1 : Tree} {p q : Path} (h : mkdirRecursive t p = some t1)
    (hq : t q = some .dir) : t1 q = some .dir := by
  rw [(mkdirRecursive_eq_some h).2]
  by_cases hp : q.isPrefixOf p = true <;> simp [hp, hq]

theorem mkdirRecursive_file {t t1 : Tree} {p q : Path} {c : Text}
    (h : mkdirRecursive t p = some t1) (hq : t q = some (.file c)) :
    t1 q = some (.file c) := by
  obtain ⟨hno, rfl⟩ := mkdirRecursive_eq_some h
  by_cases hp : q.isPrefixOf p = true
  · have := hno q (List.isPrefixOf_iff_prefix.1 hp)
    simp [isFileAt, hq] at this
  · simp [hp, hq]

/-- Directories stay directories during extraction. -/
theorem extractEntries_dir {outputDir : Path} {es : List ZipEntry} {rej : Bool}
    {t t' : Tree} {out : Extraction} {q : Path}
    (h : extractEntries outputDir es rej t = (out, t')) (hq : t q = some .dir) :
    t' q = some .dir := by
  induction es generalizing rej t with
  | nil =>
    simp only [extractEntries, Prod.mk.injEq] at h
    rw [← h.2]; exact hq
  | cons e es ih =>
    unfold extractEntries at h
    split at h
    · split at h
      · simp only [Prod.mk.injEq] at h; rw [← h.2]; exact hq
      · rename_i t1 hm
        exact ih h (mkdirRecursive_dir hm hq)
    · split at h
      · simp only [Prod.mk.injEq] at h; rw [← h.2]; exact hq
      · rename_i t1 hm
        have hq1 := mkdirRecursive_dir hm hq
        split at h
        · simp only [Prod.mk.injEq] at h; rw [← h.2]; exact hq1
        · split at h
          · exact ih h hq1
          · rename_i content _ hnd
            refine ih h ?_
            have hne : q ≠ pathJoin outputDir e.fileName := by
              rintro rfl; exact hnd hq1
            simp [Tree.writeFile, hne, hq1]

/-- A file keeps its content while no file entry is written to its path. -/
theorem extractEntries_file {outputDir : Path} {es : List ZipEntry} {rej : Bool}
    {t t' : Tree} {out : Extraction} {q : Path} {c : Text}
    (h : extractEntries outputDir es rej t = (out, t')) (hq : t q = some (.file c))
    (hes : ∀ e ∈ es, isDirectoryName e.fileName = false → pathJoin outputDir e.fileName ≠ q) :
    t' q = some (.file c) := by
  induction es generalizing rej t with
  | nil =>
    simp only [extractEntries, Prod.mk.injEq] at h
    rw [← h.2]; exact hq
  | cons e es ih =>
    have hes' : ∀ e' ∈ es, isDirectoryName e'.fileName = false →
        pathJoin outputDir e'.fileName ≠ q := fun e' he' => hes e' (List.mem_cons_of_mem _ he')
    unfold extractEntries at h
    split at h
    · split at h
      · simp only [Prod.mk.injEq] at h; rw [← h.2]; exact hq
      · rename_i t1 hm
        exact ih h (mkdirRecursive_file hm hq) hes'
    · rename_i hdir
      split at h
      · simp only [Prod.mk.injEq] at h; rw [← h.2]; exact hq
      · rename_i t1 hm
        have hq1 := mkdirRecursive_file hm hq
        split at h
        · simp only [Prod.mk.injEq] at h; rw [← h.2]; exact hq1
        · split at h
          · exact ih h hq1 hes'
          · refine ih h ?_ hes'
            have hne : q ≠ pathJoin outputDir e.fileName :=
              (hes e (List.mem_cons_self _ _) (by simpa using hdir)).symm
            simp [Tree.writeFile, hne, hq1]

/-- Once the promise is rejected the run does not end resolved. -/
theorem extractEntries_rejected {outputDir : Path} {es : List ZipEntry} {t t' : Tree} :
    extractEntries outputDir es true t ≠ (.resolved, t') := by
  induction es generalizing t with
  | nil => simp [extractEntries]
  | cons e es ih =>
    unfold extractEntries
    split
    · split
      · simp
      · exact ih
    · split
      · simp
      · split
        · simp
        · split
          · exact ih
          · exact ih

/-- A run that ends resolved passes every entry: the rest of the entries is
run from some tree and ends resolved with the same tree. -/
theorem extractEntries_append {outputDir : Path} {pre rest : List ZipEntry} {rej : Bool}
    {t t' : Tree} (h : extractEntries outputDir (pre ++ rest) rej t = (.resolved, t')) :
    ∃ rej1 t1, extractEntries outputDir rest rej1 t1 = (.resolved, t') := by
  induction pre generalizing rej t with
  | nil => exact ⟨rej, t, h⟩
  | cons e pre ih =>
    rw [List.cons_append] at h
    unfold extractEntries at h
    split at h
    · split at h
      · simp at h
      · exact ih h
    · split at h
      · simp at h
      · split at h
        · simp at h
        · split at h
          · exact ih h
          · exact ih h

/-! ## Lemmas: single entries of `extractZip`, asset selection -/

theorem extractEntries_directory_entry {outputDir : Path} {e : ZipEntry}
    {post : List ZipEntry} {rej : Bool} {t t' : Tree}
    (h : extractEntries outputDir (e :: post) rej t = (.resolved, t'))
    (he : isDirectoryName e.fileName = true) :
    ∀ q, q <+: pathJoin outputDir e.fileName → t' q = some .dir := by
  intro q hq
  unfold extractEntries at h
  rw [if_pos he] at h
  split at h
  · simp at h
  · rename_i t1 hm
    exact extractEntries_dir h (mkdirRecursive_ancestor hm hq)

theorem extractEntries_file_entry {outputDir : Path} {e : ZipEntry}
    {post : List ZipEntry} {rej : Bool} {t t' : Tree}
    (h : extractEntries outputDir (e :: post) rej t = (.resolved, t'))
    (he : isDirectoryName e.fileName = false) :
    (∀ q, q <+: (pathJoin outputDir e.fileName).dropLast → t' q = some .dir) ∧
    ∃ content, e.data = some content ∧
      ((∀ e' ∈ post, isDirectoryName e'.fileName = false →
          pathJoin outputDir e'.fileName ≠ pathJoin outputDir e.fileName) →
        t' (pathJoin outputDir e.fileName) = some (.file content)) := by
  unfold extractEntries at h
  rw [if_neg (by simp [he])] at h
  split at h
  · simp at h
  · rename_i t1 hm
    split at h
    · simp at h
    · rename_i content hdata
      split at h
      · exact absurd h extractEntries_rejected
      · rename_i hnd
        constructor
        · intro q hq
          refine extractEntries_dir h ?_
          have hq1 := mkdirRecursive_ancestor hm hq
          have hne : q ≠ pathJoin outputDir e.fileName := by
            rintro rfl; exact hnd hq1
          simp [Tree.writeFile, hne, hq1]
        · exact ⟨content, hdata, fun hlast =>
            extractEntries_file h (by simp [Tree.writeFile]) hlast⟩

theorem selectAsset_eq_error {release : Release} :
    selectAsset release = .error (assetNotFound release) ↔
      ∀ a ∈ release.assets, a.name ≠ RELEASE_ASSET_NAME := by
  unfold selectAsset
  cases h : release.assets.find? fun a => a.name = RELEASE_ASSET_NAME with
  | none =>
    simp only [true_iff]
    intro a ha
    simpa using List.find?_eq_none.1 h a ha
  | some asset =>
    have h1 : asset.name = RELEASE_ASSET_NAME := by simpa using List.find?_some h
    have h2 := List.mem_of_find?_eq_some h
    constructor
    · intro hc; simp at hc
    · intro hall; exact absurd h1 (hall asset h2)

theorem selectAsset_eq_ok {release : Release} {asset : Asset} :
    selectAsset release = .ok asset ↔
      ∃ before after, release.assets = before ++ asset :: after ∧
        asset.name = RELEASE_ASSET_NAME ∧ ∀ a ∈ before, a.name ≠ RELEASE_ASSET_NAME := by
  unfold selectAsset
  cases h : release.assets.find? fun a => a.name = RELEASE_ASSET_NAME with
  | none =>
    constructor
    · intro hc; simp at hc
    · rintro ⟨before, after, hl, hn, -⟩
      have := List.find?_eq_none.1 h asset (by rw [hl]; simp)
      simp [hn] at this
  | some found =>
    simp only [Except.ok.injEq]
    rw [List.find?_eq_some] at h
    obtain ⟨hf, before, after, hl, hb⟩ := h
    have hf' : found.name = RELEASE_ASSET_NAME := by simpa using hf
    have hb' : ∀ a ∈ before, a.name ≠ RELEASE_ASSET_NAME := fun a ha => by
      simpa using hb a ha
    constructor
    · rintro rfl
      exact ⟨before, after, hl, hf', hb'⟩
    · rintro ⟨b2, a2, hl2, hn2, hb2⟩
      -- the first asset of the name is unique
      rw [hl] at hl2
      rcases List.append_eq_append_iff.1 hl2 with ⟨m, h1, h2⟩ | ⟨m, h1, h2⟩
      · cases m with
        | nil =>
          simp only [List.nil_append, List.cons.injEq] at h2
          exact h2.1
        | cons x m =>
          simp only [List.cons_append, List.cons.injEq] at h2
          exact absurd hf' (hb2 found (by rw [h1, h2.1]; simp))
      · cases m with
        | nil =>
          simp only [List.nil_append, List.cons.injEq] at h2
          exact h2.1.symm
        | cons x m =>
          simp only [List.cons_append, List.cons.injEq] at h2
          exact absurd hn2 (hb' asset (by rw [h1, h2.1]; simp))

/-! ## The claims -/

/-- C1 (idempotent patch).  For every state of `user.js` (a missing file is
read as empty content) running `updateFirefoxPreferences` twice leaves the
content that running it once leaves: `patch (patch c) = patch c` for the text
transformation `patch` of the key
`toolkit.legacyUserProfileCustomizations.stylesheets` and the value `true`. -/
theorem updateFirefoxPreferences_idempotent (userJs : Option Text) :
    updateFirefoxPreferences (updateFirefoxPreferences userJs)
        = updateFirefoxPreferences userJs ∧
      patchContent (patchContent (userJs.getD [])) = patchContent (userJs.getD []) := by
  refine ⟨?_, patchContent_idem _⟩
  simp only [updateFirefoxPreferences, Option.getD_some, patchContent_idem]

/-- C2, counterexample.  After one call on a `user.js` with two statements of
the preference two lines hold a statement, and after one call on a `user.js`
that mentions the key in a comment only no line does. -/
theorem updateFirefoxPreferences_not_one_line :
    (updateFirefoxPreferences (some twoStatements)).map matchingLines = some 2 ∧
      (updateFirefoxPreferences (some commentOnly)).map matchingLines = some 0 := by
  set_option maxRecDepth 100000 in decide

/-- C2, amended.  For every initial content of `user.js` that does not
contain the key, or that contains exactly one statement of the preference,
after one call of `updateFirefoxPreferences` exactly one line of the file
holds a statement `user_pref("toolkit.legacyUserProfileCustomizations.stylesheets", true|false);`. -/
theorem updateFirefoxPreferences_one_line (userJs : Option Text)
    (h : includes (userJs.getD []) prefKey = false ∨ countStatements (userJs.getD []) = 1) :
    (updateFirefoxPreferences userJs).map matchingLines = some 1 := by
  simp only [updateFirefoxPreferences, Option.map_some', Option.some.injEq]
  by_cases hk : includes (userJs.getD []) prefKey = true
  · rcases h with h | h
    · rw [hk] at h; simp at h
    · simp only [patchContent, hk, if_true]
      exact matchingLines_replacePref h
  · have hk' : includes (userJs.getD []) prefKey = false := by simpa using hk
    simp only [patchContent, hk', Bool.false_eq_true, if_false]
    exact matchingLines_appended hk'

/-- C2, witness: a `user.js` with one statement that disables the preference. -/
theorem updateFirefoxPreferences_one_line_witness :
    countStatements disabledUserJs = 1 ∧
      (updateFirefoxPreferences (some disabledUserJs)).map matchingLines = some 1 :=
  ⟨by set_option maxRecDepth 100000 in decide,
    updateFirefoxPreferences_one_line (some disabledUserJs)
      (Or.inr (by set_option maxRecDepth 100000 in decide))⟩

/-- C3, counterexample.  In a `user.js` whose statement of the preference is
broken over two lines the second line, `false);`, does not contain the key,
and it is not a line of the patched file: the lines without the key are not a
subsequence of the lines of the patched file. -/
theorem updateFirefoxPreferences_drops_line :
    ¬ (keyFreeLines brokenStatement).Sublist
        (splitLines (patchContent brokenStatement)) := by
  have h1 : keyFreeLines brokenStatement = ["false);".toList] := by
    set_option maxRecDepth 100000 in decide
  have h2 : splitLines (patchContent brokenStatement) = [prefLine] := by
    set_option maxRecDepth 100000 in decide
  rw [h1, h2]
  intro h
  have := h.subset (List.mem_singleton_self _)
  revert this
  decide

/-- C3, amended.  For every initial content of `user.js` in which the
statement that is replaced (the leftmost match of the pattern, if there is
one) does not run over a line break, every line that does not contain the
preference key is still there after `updateFirefoxPreferences`, unmodified and
in the original order: the lines without the key are a subsequence of the
lines of the patched file, both when a statement is replaced and when the line
is appended. -/
theorem updateFirefoxPreferences_preserves_lines (userJs : Option Text)
    (h : ∀ pre m post, execPref (userJs.getD []) = some (pre, m, post) → '\n' ∉ m) :
    ∃ patched, updateFirefoxPreferences userJs = some patched ∧
      (keyFreeLines (userJs.getD [])).Sublist (splitLines patched) :=
  ⟨_, rfl, keyFreeLines_sublist_patchContent _ h⟩

/-- C3, witness: a `user.js` with a comment line and a statement on one line. -/
theorem updateFirefoxPreferences_preserves_lines_witness :
    ∃ patched, updateFirefoxPreferences (some disabledUserJs) = some patched ∧
      (keyFreeLines disabledUserJs).Sublist (splitLines patched) :=
  updateFirefoxPreferences_preserves_lines (some disabledUserJs) (by
    intro pre m post he
    have h0 : execPref disabledUserJs = some ("// Test user.js\n".toList,
        "user_pref(\"toolkit.legacyUserProfileCustomizations.stylesheets\", false);".toList,
        "\n".toList) := by
      set_option maxRecDepth 100000 in decide
    rw [show (some disabledUserJs).getD [] = disabledUserJs from rfl, h0] at he
    simp only [Option.some.injEq, Prod.mk.injEq] at he
    rw [← he.2.1]
    decide)

/-- C10, the code at the failing input.  For a listing with the two
candidates `a.default` and `b.default-release`, in this order, the profile
`findActiveProfile` selects is the second one: the comparator answers `-1`
for both orders of the pair, the sort takes the two for a descending run and
reverses it. -/
theorem findActiveProfile_reverses_defaults :
    compareProfiles "a.default".toList "b.default-release".toList = -1 ∧
      compareProfiles "b.default-release".toList "a.default".toList = -1 ∧
      findActiveProfile id "/".toList sampleRoot (some twoDefaults)
        = .ok "/home/u/.mozilla/firefox/b.default-release".toList := by
  refine ⟨by decide, by decide, by rfl⟩

/-- C5, counterexample.  On a server that answers every request with a 302
redirect, a chain with more redirects than any maximum, the promise of
`downloadFile` is never settled, however many requests are made: there is no
error for too many redirects. -/
theorem downloadFile_never_gives_up :
    ¬ ∃ fuel result,
        downloadFile redirectLoop sampleZip fuel "https://a".toList emptyDisk = some result := by
  rintro ⟨fuel, result, h⟩
  rw [downloadFile_redirectLoop] at h
  simp at h

/-- C5, amended.  `downloadFile` follows every 301 and 302 redirect, without a
maximum: a chain of `n` redirects, for every `n`, costs `n` requests, after
which the download goes on at the last `Location` with no file at the output
path. -/
theorem downloadFile_follows_every_redirect (net : Text → Exchange) (outputPath : Text)
    (urls : Nat → Text) (n : Nat)
    (hred : ∀ i, i < n → (net (urls i)).redirectsTo (urls (i + 1)))
    (fuel : Nat) (disk : Disk) :
    downloadFile net outputPath (n + fuel) (urls 0) disk
      = downloadFile net outputPath fuel (urls n)
          (if n = 0 then disk else disk.unlink outputPath) :=
  downloadFile_chain urls n hred outputPath fuel disk

/-- C5, witness: the chain of two redirects of `sampleNet`. -/
theorem downloadFile_follows_every_redirect_witness :
    downloadFile sampleNet sampleZip (2 + 1) (successChain 0) emptyDisk
      = downloadFile sampleNet sampleZip 1 (successChain 2)
          (if 2 = 0 then emptyDisk else emptyDisk.unlink sampleZip) :=
  downloadFile_follows_every_redirect sampleNet sampleZip successChain 2
    (by
      intro i hi
      match i, hi with
      | 0, _ => exact ⟨302, "Found".toList, [], .finish, Or.inl rfl, by decide⟩
      | 1, _ => exact ⟨301, "Moved Permanently".toList, [], .finish, Or.inr rfl, by decide⟩)
    1 emptyDisk

/-- C6 (missing asset).  For every release descriptor returned by
`getRelease`, `deploy` fails with the asset-not-found error, whose message
ends with the `tag_name` of the release, when no element of `release.assets`
has the name `firefox-chrome.zip`, and the asset step fails so exactly then;
otherwise `deploy` proceeds with the first asset of that name. -/
theorem deploy_missing_asset (release : Release) (proceed : Release → Asset → DeployResult) :
    ((∀ a ∈ release.assets, a.name ≠ "firefox-chrome.zip".toList) →
        deploy (.ok release) proceed = .failed (assetNotFound release)) ∧
      (selectAsset release = .error (assetNotFound release) ↔
        ∀ a ∈ release.assets, a.name ≠ "firefox-chrome.zip".toList) ∧
      (∀ before asset after, release.assets = before ++ asset :: after →
        asset.name = "firefox-chrome.zip".toList →
        (∀ a ∈ before, a.name ≠ "firefox-chrome.zip".toList) →
        deploy (.ok release) proceed = proceed release asset) ∧
      assetNotFound release
        = "Asset firefox-chrome.zip not found in release ".toList ++ release.tag_name := by
  refine ⟨fun h => ?_, selectAsset_eq_error, fun before asset after hl hn hb => ?_, ?_⟩
  · simp only [deploy, selectAsset_eq_error.2 h]
  · have : selectAsset release = .ok asset :=
      selectAsset_eq_ok.2 ⟨before, after, hl, hn, hb⟩
    simp only [deploy, this]
  · simp only [assetNotFound, RELEASE_ASSET_NAME]
    rw [show "Asset firefox-chrome.zip not found in release ".toList
      = "Asset ".toList ++ "firefox-chrome.zip".toList ++ " not found in release ".toList
      from by decide]

/-- C7, counterexample.  An archive with two entries named `a.txt`, with the
contents `1` and `2`, is extracted without error, and the file at `D/a.txt`
then holds `2`, not the content `1` of the first entry. -/
theorem extractZip_overwrites_duplicate :
    (extractZip (some duplicateArchive) ["D".toList] onlyD).1 = .resolved ∧
      (extractZip (some duplicateArchive) ["D".toList] onlyD).2 ["D".toList, "a.txt".toList]
        = some (.file "2".toList) ∧
      (extractZip (some duplicateArchive) ["D".toList] onlyD).2 ["D".toList, "a.txt".toList]
        ≠ some (.file "1".toList) := by
  decide

/-- C7, amended.  For every sequence of archive entries processed without
error, after `extractZip` into the directory `D` every entry whose name ends
with `/` is a directory at `D/name`, with all its ancestors; every other entry
has all its ancestor directories created and, when no later entry is written
to the same path, is a file at `D/name` whose content equals the content of the
entry; and for the entries `a/` and `a/b.txt` with content `hi`, `D/a` is a
directory and `D/a/b.txt` is a file with content `hi`. -/
theorem extractZip_fidelity (outputDir : Path) (entries : List ZipEntry) (t t' : Tree)
    (h : extractZip (some entries) outputDir t = (.resolved, t'))
    (pre : List ZipEntry) (e : ZipEntry) (post : List ZipEntry)
    (hsplit : entries = pre ++ e :: post) :
    (isDirectoryName e.fileName = true →
        ∀ q, q <+: pathJoin outputDir e.fileName → t' q = some .dir) ∧
      (isDirectoryName e.fileName = false →
        (∀ q, q <+: (pathJoin outputDir e.fileName).dropLast → t' q = some .dir) ∧
        ∃ content, e.data = some content ∧
          ((∀ e' ∈ post, isDirectoryName e'.fileName = false →
              pathJoin outputDir e'.fileName ≠ pathJoin outputDir e.fileName) →
            t' (pathJoin outputDir e.fileName) = some (.file content))) ∧
      ((extractZip (some specArchive) ["D".toList] onlyD).1 = .resolved ∧
        (extractZip (some specArchive) ["D".toList] onlyD).2 ["D".toList, "a".toList]
          = some .dir ∧
        (extractZip (some specArchive) ["D".toList] onlyD).2
          ["D".toList, "a".toList, "b.txt".toList] = some (.file "hi".toList)) := by
  subst hsplit
  obtain ⟨rej1, t1, h1⟩ := extractEntries_append (show extractEntries outputDir
    (pre ++ e :: post) false t = (.resolved, t') from h)
  exact ⟨extractEntries_directory_entry h1, extractEntries_file_entry h1, by decide⟩

/-- C7, witness: the archive of the specification, at its file entry. -/
theorem extractZip_fidelity_witness :
    (isDirectoryName "a/b.txt".toList = true →
        ∀ q, q <+: pathJoin ["D".toList] "a/b.txt".toList →
          (extractZip (some specArchive) ["D".toList] onlyD).2 q = some .dir) ∧
      (isDirectoryName "a/b.txt".toList = false →
        (∀ q, q <+: (pathJoin ["D".toList] "a/b.txt".toList).dropLast →
          (extractZip (some specArchive) ["D".toList] onlyD).2 q = some .dir) ∧
        ∃ content, some "hi".toList = some content ∧
          ((∀ e' ∈ ([] : List ZipEntry), isDirectoryName e'.fileName = false →
              pathJoin ["D".toList] e'.fileName ≠ pathJoin ["D".toList] "a/b.txt".toList) →
            (extractZip (some specArchive) ["D".toList] onlyD).2
              (pathJoin ["D".toList] "a/b.txt".toList) = some (.file content))) ∧
      ((extractZip (some specArchive) ["D".toList] onlyD).1 = .resolved ∧
        (extractZip (some specArchive) ["D".toList] onlyD).2 ["D".toList, "a".toList]
          = some .dir ∧
        (extractZip (some specArchive) ["D".toList] onlyD).2
          ["D".toList, "a".toList, "b.txt".toList] = some (.file "hi".toList)) :=
  extractZip_fidelity ["D".toList] specArchive onlyD
    (extractZip (some specArchive) ["D".toList] onlyD).2
    (Prod.ext (by decide) rfl)
    [⟨"a/".toList, some []⟩] ⟨"a/b.txt".toList, some "hi".toList⟩ [] rfl

end FirefoxExtras
